import Mathlib

set_option maxRecDepth 100000

/-!
Verification of the corrosion kernel storage stack against its specification.

This file shallowly embeds the three components the claims are about:

* the byte-grain boundary-tag allocator and the page-grain allocator
  (src/alloc.rs),
* the virtio-legacy block-device driver (src/block.rs),
* the Minix-3 filesystem read path and mount-time path cache
  (src/minixfs3.rs).

The copy primitive `memory::memcpy` is modelled with its actual
semantics, including the dead byte tail loop that drops the final
`n % 8` bytes of any copy of at least 8 bytes (`memcpyCopied`).
Machine integers are modelled as `Nat`; the `usize`/`u32` arithmetic of
the source never wraps on the reachable values the theorems speak about,
and where the truncating subtraction of the source matters it is proved
non-truncating.  Pointers into the byte pool are modelled as byte offsets
from the pool start; the chunk list tiles the pool by address, exactly as
the in-band headers do in the source (`next = this + size`).
-/

namespace Corrosion

/-! ## Byte-grain allocator (src/alloc.rs, ByteGrainAllocator) -/

/-- One byte-pool chunk: the in-band `ByteGrainFlags` header holds a size
and a taken bit (`flags & ALLOC_TAKEN`).  The pool is the list of chunks
in address order; a chunk starts where the previous one ends. -/
structure Chunk where
  size : Nat
  taken : Bool
  deriving DecidableEq, Repr

/-- Models `memory::align_val(val, order)`: `(val + (1 << order) - 1) & !((1 << order) - 1)`,
i.e. round `val` up to a multiple of `2 ^ order` (no usize overflow on the
values considered). -/
def align_val (val order : Nat) : Nat :=
  ((val + (1 <<< order) - 1) >>> order) <<< order

/-- Size in bytes of the in-band `ByteGrainFlags` header (one `usize`). -/
def headerSize : Nat := 8

/-- Total bytes of the byte pool: `BYTE_GRAIN_ALLOC` reserves 512 pages of
`PAGE_SIZE = 0x1000` bytes. -/
def poolSize : Nat := 512 * 4096

/-- Scan loop of `ByteGrainAllocator::kmalloc`: walk the chunk list from
the pool head; `addr` is the byte offset of the current header.  On the
first free chunk with `size <= chunk.size`: take it, splitting off the
remainder as a new free chunk when `rem > size_of::<ByteGrainFlags>()`,
and return the offset just past the header.  Returns `none` when the scan
reaches the pool tail. -/
def kmallocGo (size : Nat) : Nat → List Chunk → Option Nat × List Chunk
  | _, [] => (none, [])
  | addr, c :: rest =>
    if c.taken = false ∧ size ≤ c.size then
      let rem := c.size - size
      if rem > headerSize then
        (some (addr + headerSize), ⟨size, true⟩ :: ⟨rem, false⟩ :: rest)
      else
        (some (addr + headerSize), ⟨c.size, true⟩ :: rest)
    else
      let r := kmallocGo size (addr + c.size) rest
      (r.1, c :: r.2)

/-- Models `ByteGrainAllocator::kmalloc(sz)`: the request is rounded up to
an 8-byte boundary and the header size added, then the chunk list is
first-fit scanned.  The returned offset is the data pointer (header offset
plus `headerSize`). -/
def kmalloc (cs : List Chunk) (sz : Nat) : Option Nat × List Chunk :=
  kmallocGo (align_val sz 3 + headerSize) 0 cs

/-- Models the coalesce pass of `ByteGrainAllocator::coalesce`: scan from
the pool head; stop at a zero-size header or when the next header is at or
past the tail; merge a free chunk with a free successor, after which the
scan continues _past_ the merged chunk (the source advances `head` by the
just-enlarged size). -/
def coalesce : List Chunk → List Chunk
  | [] => []
  | [c] => [c]
  | c :: d :: rest =>
    if c.size = 0 then c :: d :: rest
    else if c.taken = false ∧ d.taken = false then
      ⟨c.size + d.size, false⟩ :: coalesce rest
    else
      c :: coalesce (d :: rest)

/-- Mark free the chunk whose header sits at byte offset `target`
(`ptr - headerSize` in `kfree`): walk the list accumulating addresses; the
source flips the taken bit only when it is set. -/
def markFreeAt : List Chunk → Nat → Nat → List Chunk
  | [], _, _ => []
  | c :: rest, addr, target =>
    if addr = target then
      (if c.taken then { c with taken := false } :: rest else c :: rest)
    else
      c :: markFreeAt rest (addr + c.size) target

/-- Models `ByteGrainAllocator::kfree(ptr)`: `none` is the null pointer
and is a no-op; otherwise the header `headerSize` bytes before the data
offset is marked free (if taken) and the coalesce pass runs. -/
def kfree (cs : List Chunk) (ptr : Option Nat) : List Chunk :=
  match ptr with
  | none => cs
  | some p => coalesce (markFreeAt cs 0 (p - headerSize))

/-- Byte offset of the chunk whose header is at `target`, walking like
`markFreeAt`; used to state which chunk a pointer refers to. -/
def chunkAtAddr : List Chunk → Nat → Nat → Option Chunk
  | [], _, _ => none
  | c :: rest, addr, target =>
    if addr = target then some c else chunkAtAddr rest (addr + c.size) target

/-- Sum of the sizes of a chunk list (the pool bytes it covers). -/
def sumSizes (cs : List Chunk) : Nat := (cs.map Chunk.size).sum

/-! ## Page-grain allocator (src/alloc.rs, PageGrainAllocator) -/

/-- One `PageGrainFlags` record: bit 0 is `PAGE_FLAG_TAKEN`, bit 1 is
`PAGE_FLAG_LAST`.  `set_flag` ORs a bit in, so marking taken leaves the
last bit alone and marking last leaves the taken bit alone. -/
structure PageRec where
  taken : Bool
  last : Bool
  deriving DecidableEq, Repr

/-- A run of `pages` records starting at index `i` is entirely free.  In
`PageGrainAllocator::alloc` this is the `found` flag: `is_free(i)` and no
`j` in `i..i+pages` is taken, which together say every record of the run
has its taken bit clear. -/
def freeRun (st : List PageRec) (i pages : Nat) : Bool :=
  (List.range pages).all fun j => !(st.getD (i + j) ⟨true, false⟩).taken

/-- First-fit search of `PageGrainAllocator::alloc`: the first `i` in
`0..=num_pages - pages` whose run of `pages` records is free. -/
def findRun (st : List PageRec) (pages : Nat) : Option Nat :=
  (List.range (st.length - pages + 1)).find? fun i => freeRun st i pages

/-- Marking loop of `PageGrainAllocator::alloc`: OR `PAGE_FLAG_TAKEN` into
every record of the run `[i, i+pages)` and `PAGE_FLAG_LAST` into the final
one.  The first argument counts down to the run start, the second is the
remaining run length. -/
def markRun : List PageRec → Nat → Nat → List PageRec
  | [], _, _ => []
  | p :: rest, 0, 0 => p :: rest
  | p :: rest, 0, n + 1 =>
    ⟨true, if n = 0 then true else p.last⟩ :: markRun rest 0 n
  | p :: rest, i + 1, n => p :: markRun rest i n

/-- Models `PageGrainAllocator::alloc(pages)` on the page-record table.
`assert!(pages > 0)` aborts the process for `pages = 0`, modelled as
`none` (the call does not succeed); a request larger than the heap cannot
find a run and is also `none`.  On success the result is the index of the
run base (the source returns `BGA start + PAGE_SIZE * i`) and the updated
table. -/
def pageAlloc (st : List PageRec) (pages : Nat) : Option (Nat × List PageRec) :=
  if pages = 0 then none
  else if st.length < pages then none
  else
    match findRun st pages with
    | none => none
    | some i => some (i, markRun st i pages)

/-! ## Minix-3 filesystem read path (src/minixfs3.rs) -/

/-- The disk under the block driver, viewed per 1024-byte filesystem
block: `data b` is the byte content of block `b` (what `block::read` puts
in a buffer for offset `BLOCK_SIZE * b`), and `idx b i` is entry `i` of
block `b` reinterpreted as an array of `u32` zone numbers (what
`izone_present`/`read_izone` see after loading an index block).  Data
blocks and index blocks are disjoint uses, so the two views are kept as
separate fields. -/
structure Disk where
  data : Nat → List Nat
  idx : Nat → Nat → Nat

/-- The fields of an on-disk `Inode` that `MinixFileSystem::read` uses:
the byte size and the 10 zone pointers (7 direct, then single-, double-,
triple-indirect).  A zone pointer of 0 is a hole. -/
structure Ino where
  size : Nat
  zones : List Nat
  deriving Repr

/-- Zone pointer `i` of an inode (`inode.zones[i]`). -/
def zoneAt (inode : Ino) (i : Nat) : Nat := inode.zones.getD i 0

/-- Models `ReadState` together with the destination buffer the source
passes alongside it to every traversal function: `buf i` is the byte at
index `i` of the caller buffer (the source writes each block slice at
`buffer + bytes_read`). -/
structure RS where
  offsetByte : Nat
  bytesRead : Nat
  bytesLeft : Nat
  blocksSeen : Nat
  offsetBlock : Nat
  buf : Nat → Nat

/-- Models `ReadState::new(inode_size, size, offset)`; `buf0` is the
content of the caller buffer at the start of the read (the source keeps
the buffer pointer beside the cursor, bundled here). -/
def initRS (buf0 : Nat → Nat) (inodeSize size offset : Nat) : RS :=
  { offsetByte := offset % 1024
    bytesRead := 0
    bytesLeft := if size > inodeSize then inodeSize else size
    blocksSeen := 0
    offsetBlock := offset / 1024
    buf := buf0 }

/-- The per-block byte count of `MinixFileSystem::read_data`:
`BLOCK_SIZE - offset_byte` capped by `bytes_left`. -/
def bytesToRead (rs : RS) : Nat :=
  if 1024 - rs.offsetByte > rs.bytesLeft then rs.bytesLeft else 1024 - rs.offsetByte

/-- How many bytes `memory::memcpy(dest, src, n)` actually writes.  Its
word loop copies `n / 8` u64 words, i.e. the first `n / 8 * 8` bytes;
its byte tail loop then runs over `bytes_completed..bytes_remaining`
where `bytes_completed = n / 8 * 8` and `bytes_remaining = n % 8` — an
empty range whenever `n >= 8`, so the final `n % 8` bytes are dropped;
only for `n < 8` (word loop empty, tail range `0..n`) is the whole count
copied. -/
def memcpyCopied (n : Nat) : Nat := if n < 8 then n else n / 8 * 8

/-- Models `MinixFileSystem::read_data` with the content of the current
zone `blk` in the direct buffer: `memcpy(buffer + bytes_read,
direct_buffer + offset_byte, bytes_to_read)` writes only the first
`memcpyCopied bytes_to_read` of the slice, leaving the rest of the
destination range as it was; then `ReadState::next` zeroes `offset_byte`,
adds the full `bytes_to_read` to `bytes_read` and subtracts it from
`bytes_left`. -/
def readData (blk : List Nat) (rs : RS) : RS :=
  let btr := bytesToRead rs
  { offsetByte := 0
    bytesRead := rs.bytesRead + btr
    bytesLeft := rs.bytesLeft - btr
    blocksSeen := rs.blocksSeen
    offsetBlock := rs.offsetBlock
    buf := fun i =>
      if rs.bytesRead ≤ i ∧ i < rs.bytesRead + memcpyCopied btr then
        (blk.drop rs.offsetByte).getD (i - rs.bytesRead) 0
      else rs.buf i }

/-- Models `ReadState::seen_block`. -/
def seenBlock (rs : RS) : RS := { rs with blocksSeen := rs.blocksSeen + 1 }

/-- One non-hole zone `z` as handled inside every traversal loop: if
`in_window` (`offset_block <= blocks_seen`) the block of that zone is read and
copied, and when `bytes_left` hits 0 the level returns early (flag
`true`); otherwise the zone is only counted via `seen_block`. -/
def processZone (d : Disk) (z : Nat) (rs : RS) : RS × Bool :=
  if rs.offsetBlock ≤ rs.blocksSeen then
    if (readData (d.data z) rs).bytesLeft = 0 then (readData (d.data z) rs, true)
    else (seenBlock (readData (d.data z) rs), false)
  else (seenBlock rs, false)

/-- A traversal loop over the non-hole zones it visits, in order, with the
early return propagated as the `Bool`. -/
def processZones (d : Disk) : List Nat → RS → RS × Bool
  | [], rs => (rs, false)
  | z :: zs, rs =>
    let p := processZone d z rs
    if p.2 then p else processZones d zs p.1

/-- Two nested traversal loops (the double-indirect level): one inner
zone list per non-hole entry of the top index block. -/
def processZoneLists (d : Disk) : List (List Nat) → RS → RS × Bool
  | [], rs => (rs, false)
  | g :: gs, rs =>
    let p := processZones d g rs
    if p.2 then p else processZoneLists d gs p.1

/-- Three nested traversal loops (the triple-indirect level). -/
def processZoneGrids (d : Disk) : List (List (List Nat)) → RS → RS × Bool
  | [], rs => (rs, false)
  | g :: gs, rs =>
    let p := processZoneLists d g rs
    if p.2 then p else processZoneGrids d gs p.1

/-- Drop the holes from a list of zone pointers: each loop body is guarded
by a `zone != 0` check (`continue` / `izone_present`), so the loop visits
exactly the non-zero entries in order. -/
def nz (l : List Nat) : List Nat := l.filter fun z => z != 0

/-- The `PTR_INDEX_MAX = BLOCK_SIZE / 4 = 256` zone-number entries of
index block `b`. -/
def zoneEntries (d : Disk) (b : Nat) : List Nat := (List.range 256).map (d.idx b)

/-- The non-hole direct zones (`for i in 0..DIRECT_ZONES`, skipping
`zones[i] == 0`). -/
def directL (inode : Ino) : List Nat := nz ((List.range 7).map (zoneAt inode))

/-- Models `MinixFileSystem::direct_zones`. -/
def directZonesF (d : Disk) (inode : Ino) (rs : RS) : RS × Bool :=
  processZones d (directL inode) rs

/-- Models `MinixFileSystem::indirect_zones`: nothing happens when
`zones[INDIRECT_ZONE] == 0`; otherwise the index block is loaded and its
non-hole entries are traversed. -/
def indirectZonesF (d : Disk) (inode : Ino) (rs : RS) : RS × Bool :=
  if zoneAt inode 7 = 0 then (rs, false)
  else processZones d (nz (zoneEntries d (zoneAt inode 7))) rs

/-- The inner zone lists of a double-indirect top index block `b`: one
list of non-hole data zones per non-hole entry of `b`. -/
def doubleGroups (d : Disk) (b : Nat) : List (List Nat) :=
  (nz (zoneEntries d b)).map fun e => nz (zoneEntries d e)

/-- Models `MinixFileSystem::double_indirect_zones`. -/
def doubleIndirectF (d : Disk) (inode : Ino) (rs : RS) : RS × Bool :=
  if zoneAt inode 8 = 0 then (rs, false)
  else processZoneLists d (doubleGroups d (zoneAt inode 8)) rs

/-- The nested zone lists of a triple-indirect top index block `b`. -/
def tripleGroups (d : Disk) (b : Nat) : List (List (List Nat)) :=
  (nz (zoneEntries d b)).map fun e => doubleGroups d e

/-- Models `MinixFileSystem::triple_indirect_zones`. -/
def tripleIndirectF (d : Disk) (inode : Ino) (rs : RS) : RS × Bool :=
  if zoneAt inode 9 = 0 then (rs, false)
  else processZoneGrids d (tripleGroups d (zoneAt inode 9)) rs

/-- The `u32` each level function returns: `bytes_read` on the early
return, `0` when the loop ran to completion. -/
def levelBr (p : RS × Bool) : Nat := if p.2 then p.1.bytesRead else 0

/-- Models `MinixFileSystem::read(inode, buffer, size, offset)`: the four
levels run in order, each consulted via its `br != 0` check; the final
fallthrough returns `rs.bytes_read`.  `buf0` is the content of the caller
buffer before the call.  Result: the returned byte count and the content
of the caller buffer after the call. -/
def mfsRead (d : Disk) (inode : Ino) (buf0 : Nat → Nat) (size offset : Nat) :
    Nat × (Nat → Nat) :=
  let rs0 := initRS buf0 inode.size size offset
  let p1 := directZonesF d inode rs0
  if levelBr p1 ≠ 0 then (p1.1.bytesRead, p1.1.buf)
  else
    let p2 := indirectZonesF d inode p1.1
    if levelBr p2 ≠ 0 then (p2.1.bytesRead, p2.1.buf)
    else
      let p3 := doubleIndirectF d inode p2.1
      if levelBr p3 ≠ 0 then (p3.1.bytesRead, p3.1.buf)
      else
        let p4 := tripleIndirectF d inode p3.1
        if levelBr p4 ≠ 0 then (p4.1.bytesRead, p4.1.buf)
        else (p4.1.bytesRead, p4.1.buf)

/-- The full traversal order of non-hole zones: direct, then single-,
double-, triple-indirect, holes skipped outright at every level. -/
def zoneListModel (d : Disk) (inode : Ino) : List Nat :=
  directL inode
    ++ (if zoneAt inode 7 = 0 then [] else nz (zoneEntries d (zoneAt inode 7)))
    ++ (if zoneAt inode 8 = 0 then [] else (doubleGroups d (zoneAt inode 8)).flatten)
    ++ (if zoneAt inode 9 = 0 then []
        else ((tripleGroups d (zoneAt inode 9)).map List.flatten).flatten)

/-- Reference flat-array model of the logical file, per the stated hole
semantics of the spec: the concatenation of the blocks of the non-hole
zones in traversal order (a zero zone pointer at any level is skipped
outright and does not occupy logical positions). -/
def flatFileModel (d : Disk) (inode : Ino) : List Nat :=
  (zoneListModel d inode).flatMap d.data

/-! ## Virtio-legacy block driver (src/block.rs) -/

/-- MMIO register indices as the source computes them (byte offset divided
by 4). -/
def MMIO_HOST_FEATURES : Nat := 4

def MMIO_GUEST_FEATURES : Nat := 8

def MMIO_GUEST_PAGE_SIZE : Nat := 10

def MMIO_QUEUE_SELECT : Nat := 12

def MMIO_QUEUE_NUMBER_MAX : Nat := 13

def MMIO_QUEUE_NUMBER : Nat := 14

def MMIO_QUEUE_PFN : Nat := 16

def MMIO_QUEUE_NOTIFY : Nat := 20

def MMIO_STATUS : Nat := 28

/-- Device status bits as defined in src/block.rs. -/
def STATUS_FIELD_ACKNOWLEDGE : Nat := 1

/-- The second status bit this driver sets; the source names it
`STATUS_FIELD_DRIVER_OK` with value 4. -/
def STATUS_FIELD_DRIVER_OK : Nat := 4

def STATUS_FIELD_FEATURES_OK : Nat := 8

def STATUS_FIELD_FAILED : Nat := 128

/-- The read-only feature bit, `1 << 5`. -/
def VIRTIO_FEATURE_RO : Nat := 32

/-- The fixed ring size of the driver, `1 << 7`. -/
def VIRTIO_RING_SIZE : Nat := 128

def VIRTIO_DESC_FLAG_NEXT : Nat := 1

def VIRTIO_DESC_FLAG_WRITE : Nat := 2

/-- One MMIO register access, in program order. -/
inductive MMIOEvent where
  | readReg (r : Nat)
  | writeReg (r v : Nat)
  deriving DecidableEq, Repr

/-- Models `BlockDevice::init_status`: reset the status register, set
ACKNOWLEDGE, then OR in the driver bit.  Returns the events and the
accumulated `status_bits`. -/
def initStatus : List MMIOEvent × Nat :=
  ([MMIOEvent.writeReg MMIO_STATUS 0,
    MMIOEvent.writeReg MMIO_STATUS STATUS_FIELD_ACKNOWLEDGE,
    MMIOEvent.writeReg MMIO_STATUS (STATUS_FIELD_ACKNOWLEDGE ||| STATUS_FIELD_DRIVER_OK)],
   STATUS_FIELD_ACKNOWLEDGE ||| STATUS_FIELD_DRIVER_OK)

/-- Models `BlockDevice::init_guest_features`: read the host features,
clear the read-only bit (`& !VIRTIO_FEATURE_RO` on u32, i.e. mask with
0xFFFFFFDF) and write the result to the guest feature register; remember
whether the host advertised read-only. -/
def initGuestFeatures (host : Nat) : List MMIOEvent × Bool :=
  ([MMIOEvent.readReg MMIO_HOST_FEATURES,
    MMIOEvent.writeReg MMIO_GUEST_FEATURES (host &&& 4294967263)],
   host &&& VIRTIO_FEATURE_RO != 0)

/-- Models `BlockDevice::init_status_check`: OR FEATURES_OK into the
status bits and write them, read the status back (`echo` is the value the
device returns); if the device did not keep FEATURES_OK, write FAILED and
report failure. -/
def initStatusCheck (echo statusBits : Nat) : List MMIOEvent × Bool × Nat :=
  let sbOut := statusBits ||| STATUS_FIELD_FEATURES_OK
  if echo &&& STATUS_FIELD_FEATURES_OK = 0 then
    ([MMIOEvent.writeReg MMIO_STATUS sbOut, MMIOEvent.readReg MMIO_STATUS,
      MMIOEvent.writeReg MMIO_STATUS STATUS_FIELD_FAILED], false, 0)
  else
    ([MMIOEvent.writeReg MMIO_STATUS sbOut, MMIOEvent.readReg MMIO_STATUS], true, sbOut)

/-- Models `BlockDevice::init_queue_check`: read the maximum queue
size of the device; fail when it is smaller than the ring size of the driver, else
program the queue size and selector. -/
def initQueueCheck (qnmax : Nat) : List MMIOEvent × Bool :=
  if VIRTIO_RING_SIZE > qnmax then ([MMIOEvent.readReg MMIO_QUEUE_NUMBER_MAX], false)
  else
    ([MMIOEvent.readReg MMIO_QUEUE_NUMBER_MAX,
      MMIOEvent.writeReg MMIO_QUEUE_NUMBER VIRTIO_RING_SIZE,
      MMIOEvent.writeReg MMIO_QUEUE_SELECT 0], true)

/-- Models `BlockDevice::init_pfn`: program the guest page size and the
page frame number of the queue (`queueAddr / PAGE_SIZE`). -/
def initPfn (queueAddr : Nat) : List MMIOEvent :=
  [MMIOEvent.writeReg MMIO_GUEST_PAGE_SIZE 4096,
   MMIOEvent.writeReg MMIO_QUEUE_PFN (queueAddr / 4096)]

/-- Models `BlockDevice::init_notify`: OR DRIVER_OK into the status bits
and write them. -/
def initNotify (statusBits : Nat) : List MMIOEvent :=
  [MMIOEvent.writeReg MMIO_STATUS (statusBits ||| STATUS_FIELD_DRIVER_OK)]

/-- Models `BlockDevice::init(ptr)` as the success flag and the trace of
MMIO register accesses it performs, as functions of the device-provided
inputs: the host feature word, the status value the device echoes after
the FEATURES_OK write, the maximum queue size, and the address of the
allocated queue pages. -/
def blockInit (host echo qnmax queueAddr : Nat) : Bool × List MMIOEvent :=
  let s := initStatus
  let g := initGuestFeatures host
  let c := initStatusCheck echo s.2
  if c.2.1 = false then (false, s.1 ++ g.1 ++ c.1)
  else
    let q := initQueueCheck qnmax
    if q.2 = false then (false, s.1 ++ g.1 ++ c.1 ++ q.1)
    else (true, s.1 ++ g.1 ++ c.1 ++ q.1 ++ initPfn queueAddr ++ initNotify c.2.2)

/-- A descriptor-table entry. -/
structure Desc where
  addr : Nat
  len : Nat
  flags : Nat
  next : Nat
  deriving DecidableEq, Repr

/-- The driver-side state of `BlockDevice` that `block_operation`
touches: the running descriptor index, the available ring and its index,
the descriptor table, the per-slot ready flags and the read-only flag.
Heap addresses (of the `Request` record and of the data buffer) are
passed in as plain numbers. -/
structure BlockDev where
  idx : Nat
  availIdx : Nat
  availRing : List Nat
  descs : List Desc
  ready : List Bool
  readOnly : Bool
  deriving Repr

/-- The `Request` record the driver fills before submitting (type and
sector in the header, buffer pointer, status byte initialised to 111). -/
structure BlkRequest where
  blktype : Nat
  sector : Nat
  dataAddr : Nat
  status : Nat
  deriving DecidableEq, Repr

/-- Models `BlockDevice::fill_next_descriptor`: advance `idx` modulo the
ring size, store the descriptor there, and when its NEXT flag is set point
its `next` field at the following slot. -/
def fillNextDescriptor (dev : BlockDev) (desc : Desc) : BlockDev × Nat :=
  let i := (dev.idx + 1) % VIRTIO_RING_SIZE
  let ds := dev.descs.set i desc
  let ds2 :=
    if desc.flags &&& VIRTIO_DESC_FLAG_NEXT ≠ 0 then
      ds.set i { desc with next := (i + 1) % VIRTIO_RING_SIZE }
    else ds
  ({ dev with idx := i, descs := ds2 }, i)

/-- Models `BlockDevice::block_header`: fill the header descriptor
(NEXT-flagged, 16-byte `Header`) and build the request record.  `reqAddr`
is the heap address `alloc_bytes` returned for the request. -/
def blockHeaderF (dev : BlockDev) (reqAddr bufAddr offset : Nat) (write : Bool) :
    BlockDev × Nat × BlkRequest :=
  let desc : Desc := { addr := reqAddr, len := 16, flags := VIRTIO_DESC_FLAG_NEXT, next := 0 }
  let p := fillNextDescriptor dev desc
  (p.1, p.2,
   { blktype := if write then 1 else 0
     sector := offset / 512
     dataAddr := bufAddr
     status := 111 })

/-- Models `BlockDevice::block_data`: the data descriptor points at the
caller buffer, NEXT-flagged, and device-writable for a read. -/
def blockDataF (dev : BlockDev) (bufAddr size : Nat) (write : Bool) : BlockDev :=
  let desc : Desc :=
    { addr := bufAddr
      len := size
      flags := VIRTIO_DESC_FLAG_NEXT ||| (if write = false then VIRTIO_DESC_FLAG_WRITE else 0)
      next := 0 }
  (fillNextDescriptor dev desc).1

/-- Models `BlockDevice::block_status`: the status descriptor points at
the status byte of the request (offset 24 inside `Request`), device-writable,
ending the chain. -/
def blockStatusF (dev : BlockDev) (reqAddr : Nat) : BlockDev :=
  let desc : Desc :=
    { addr := reqAddr + 24, len := 1, flags := VIRTIO_DESC_FLAG_WRITE, next := 0 }
  (fillNextDescriptor dev desc).1

/-- Models `BlockDevice::block_notify`: publish the chain head in the
available ring, bump the (u16) available index, clear the ready flag of the
slot, ring the doorbell.  Returns the slot index the spin loop watches. -/
def blockNotifyF (dev : BlockDev) (headIdx : Nat) : BlockDev × Nat :=
  let i := dev.availIdx % VIRTIO_RING_SIZE
  ({ dev with
      availRing := dev.availRing.set i headIdx
      availIdx := (dev.availIdx + 1) % 65536
      ready := dev.ready.set i false },
   i)

/-- The submit half of `block_operation`: header, data and status
descriptors followed by the notify.  Returns the state and the watched
slot. -/
def submitRequest (dev : BlockDev) (reqAddr bufAddr size offset : Nat) (write : Bool) :
    BlockDev × Nat :=
  let h := blockHeaderF dev reqAddr bufAddr offset write
  let d2 := blockDataF h.1 bufAddr size write
  let d3 := blockStatusF d2 reqAddr
  blockNotifyF d3 h.2.1

/-- The spin loop `while counter < WAIT_FOR_READY && !self.ready[idx]`:
`f k` is the value of the watched ready flag as observed at iteration `k`
(only the interrupt handler ever sets it back to true).  Returns the final
counter value. -/
def spinGo (f : Nat → Bool) : Nat → Nat → Nat
  | 0, c => c
  | fuel + 1, c => if f c then c else spinGo f fuel (c + 1)

/-- Iterations executed by the spin loop with budget `budget`
(`WAIT_FOR_READY`; the value of that constant lives in the project
configuration, so the budget is kept as a parameter). -/
def spinIters (budget : Nat) (f : Nat → Bool) : Nat := spinGo f budget 0

/-- Models `BlockDevice::block_operation`: a write to a read-only device
is logged and dropped; otherwise the request is submitted and the spin
loop runs.  The result is the new driver state, the caller buffer
(which the submit path never writes — only the device fills it,
asynchronously), and the `()` the Rust function returns: the return type
carries no error value, whether or not the spin budget was exhausted. -/
def blockOperation (dev : BlockDev) (reqAddr : Nat) (buffer : List Nat)
    (bufAddr size offset : Nat) (write : Bool) (budget : Nat) (f : Nat → Bool) :
    BlockDev × List Nat × Unit :=
  if dev.readOnly ∧ write then (dev, buffer, ())
  else
    let s := submitRequest dev reqAddr bufAddr size offset write
    let _iters := spinIters budget f
    (s.1, buffer, ())

/-! ## Mount-time path cache (src/minixfs3.rs, cache_tree) -/

/-- What `cache_tree` needs of an inode: the directory bit of `mode`
(`S_IFDIR`), the byte size, and — for a directory — the logical sequence
of its directory entries (inode number and name bytes, the name as stored
up to the first NUL of the 60-byte field). -/
structure FInode where
  isDir : Bool
  size : Nat
  dirents : List (Nat × List Nat)

/-- The inode table: `node n` is inode number `n`
(`MinixFileSystem::get_inode`). -/
structure FS where
  node : Nat → FInode

/-- Models `Inode::get_dirents`: the source reads only `BLOCK_SIZE`
bytes of directory data — `MinixFileSystem::read(self, buf, BLOCK_SIZE,
0)` — which for a directory whose blocks are allocated returns
`min(BLOCK_SIZE, size)` bytes, and divides by
`size_of::<DirEntry>() = 64`; so only the first `min(1024, size) / 64`
entries are ever seen.  The per-block copy counts here are multiples of
64 bytes, so the dropped-tail defect of `memory::memcpy` (`memcpyCopied`)
does not disturb the entries that are read. -/
def getDirents (fs : FS) (ino : Nat) : List (Nat × List Nat) :=
  let sz := min 1024 (fs.node ino).size
  (fs.node ino).dirents.take (sz / 64)

/-- Models `DirEntry::abs_name(cwd, inode_num)`: the current path, a
slash (byte 47) unless the containing directory is the root inode 1, then
the entry name. -/
def absName (cwd : List Nat) (inoNum : Nat) (name : List Nat) : List Nat :=
  cwd ++ (if inoNum ≠ 1 then [47] else []) ++ name

/-- Models `MinixFileSystem::cache_tree`, with explicit recursion fuel
(the source recurses on the directory tree; any fuel at least the tree
depth gives the same result).  Entries `0` and `1` (`DIR_ENTRY_START = 2`)
are skipped; a directory entry is recursed into, a regular file is
inserted into the cache under its absolute path. -/
def cacheTree (fs : FS) : Nat → List Nat → Nat → List (List Nat × Nat) → List (List Nat × Nat)
  | 0, _, _, btm => btm
  | fuel + 1, cwd, ino, btm =>
    ((getDirents fs ino).drop 2).foldl
      (fun acc e =>
        let newCwd := absName cwd ino e.2
        if (fs.node e.1).isDir then cacheTree fs fuel newCwd e.1 acc
        else (newCwd, e.1) :: acc)
      btm

/-- Path-cache lookup (`MFS_INODE_CACHE.get`): the inode cached under a
path, if any. -/
def lookupCache (btm : List (List Nat × Nat)) (path : List Nat) : Option Nat :=
  (btm.find? fun e => e.1 == path).map Prod.snd

/-- Specification-side reachability: the absolute paths of every regular
file reachable from `ino` through chains of directory entries, using the
full directory contents (entries `.` and `..` excluded), not the
one-block window `get_dirents` sees. -/
def reachableFilePaths (fs : FS) : Nat → List Nat → Nat → List (List Nat)
  | 0, _, _ => []
  | fuel + 1, cwd, ino =>
    ((fs.node ino).dirents.drop 2).foldl
      (fun acc e =>
        let newCwd := absName cwd ino e.2
        if (fs.node e.1).isDir then acc ++ reachableFilePaths fs fuel newCwd e.1
        else acc ++ [newCwd])
      []

/-- A two-block example disk: block `b` holds 1024 copies of the byte
value `b`; no index blocks are used. -/
def exDisk : Disk where
  data := fun b => List.replicate 1024 b
  idx := fun _ _ => 0

/-- A concrete device state used by the block-driver witnesses. -/
def devW : BlockDev :=
  { idx := 0
    availIdx := 0
    availRing := List.replicate 128 0
    descs := List.replicate 128 ⟨0, 0, 0, 0⟩
    ready := List.replicate 128 true
    readOnly := false }

/-- A root directory holding 17 entries: `.`, `..` and fifteen regular
files named by single bytes 97..111, so its byte size is
`17 * 64 = 1088 > BLOCK_SIZE`. -/
def c4Root : FInode where
  isDir := true
  size := 1088
  dirents := (1, [46]) :: (1, [46, 46]) :: (List.range 15).map fun j => (10 + j, [97 + j])

/-- A regular file inode. -/
def c4File : FInode where
  isDir := false
  size := 3
  dirents := []

/-- The failing filesystem: inode 1 is the large root directory, every
other inode number is a regular file. -/
def c4FS : FS where
  node := fun n => if n = 1 then c4Root else c4File

end Corrosion


namespace Corrosion

/-! ## Theorems -/

/-- C1: the claim demands that after any allocate/free sequence in which
every returned allocation is freed, `allocate_bytes(pool_size - header)`
succeeds.  The code fails it: allocate three 8-byte blocks (returned data
offsets 8, 24, 40), free them in the order first, third, second — every
outstanding allocation is now freed — and the full-pool request returns
null.  The coalesce pass advances past a just-merged chunk, so the pool
ends as two adjacent free chunks (32 and 2097120 bytes) that no pass ever
merges, and no free chunk can hold the request-plus-header
`poolSize` bytes. -/
theorem c1_full_coalescence_fails :
    (kmalloc [⟨poolSize, false⟩] 8).1 = some 8 ∧
    (kmalloc (kmalloc [⟨poolSize, false⟩] 8).2 8).1 = some 24 ∧
    (kmalloc (kmalloc (kmalloc [⟨poolSize, false⟩] 8).2 8).2 8).1 = some 40 ∧
    kfree (kfree (kfree
        (kmalloc (kmalloc (kmalloc [⟨poolSize, false⟩] 8).2 8).2 8).2
        (some 8)) (some 40)) (some 24) = [⟨32, false⟩, ⟨2097120, false⟩] ∧
    (kmalloc (kfree (kfree (kfree
        (kmalloc (kmalloc (kmalloc [⟨poolSize, false⟩] 8).2 8).2 8).2
        (some 8)) (some 40)) (some 24)) (poolSize - headerSize)).1 = none := by
  decide

/-- C5: `BlockDevice::init` performs the legacy-MMIO negotiation in the
claimed order — status reset write of 0, the ACKNOWLEDGE bit, then
ACKNOWLEDGE with the driver bit (named `STATUS_FIELD_DRIVER_OK` in this driver),
the host feature read and the guest feature write with the read-only bit
masked out, the FEATURES_OK write followed by the status read-back; when
the device does not echo FEATURES_OK it writes FAILED and fails, and when
the maximum queue size of the device is below the ring size it fails after the
queue-max read; otherwise it programs the queue and page registers and
finishes with the DRIVER_OK status write. -/
theorem c5_init_negotiation_sequence (host echo qnmax queueAddr : Nat) :
    blockInit host echo qnmax queueAddr =
      if echo &&& STATUS_FIELD_FEATURES_OK = 0 then
        (false,
         [MMIOEvent.writeReg MMIO_STATUS 0,
          MMIOEvent.writeReg MMIO_STATUS STATUS_FIELD_ACKNOWLEDGE,
          MMIOEvent.writeReg MMIO_STATUS
            (STATUS_FIELD_ACKNOWLEDGE ||| STATUS_FIELD_DRIVER_OK),
          MMIOEvent.readReg MMIO_HOST_FEATURES,
          MMIOEvent.writeReg MMIO_GUEST_FEATURES (host &&& 4294967263),
          MMIOEvent.writeReg MMIO_STATUS
            (STATUS_FIELD_ACKNOWLEDGE ||| STATUS_FIELD_DRIVER_OK |||
              STATUS_FIELD_FEATURES_OK),
          MMIOEvent.readReg MMIO_STATUS,
          MMIOEvent.writeReg MMIO_STATUS STATUS_FIELD_FAILED])
      else if qnmax < VIRTIO_RING_SIZE then
        (false,
         [MMIOEvent.writeReg MMIO_STATUS 0,
          MMIOEvent.writeReg MMIO_STATUS STATUS_FIELD_ACKNOWLEDGE,
          MMIOEvent.writeReg MMIO_STATUS
            (STATUS_FIELD_ACKNOWLEDGE ||| STATUS_FIELD_DRIVER_OK),
          MMIOEvent.readReg MMIO_HOST_FEATURES,
          MMIOEvent.writeReg MMIO_GUEST_FEATURES (host &&& 4294967263),
          MMIOEvent.writeReg MMIO_STATUS
            (STATUS_FIELD_ACKNOWLEDGE ||| STATUS_FIELD_DRIVER_OK |||
              STATUS_FIELD_FEATURES_OK),
          MMIOEvent.readReg MMIO_STATUS,
          MMIOEvent.readReg MMIO_QUEUE_NUMBER_MAX])
      else
        (true,
         [MMIOEvent.writeReg MMIO_STATUS 0,
          MMIOEvent.writeReg MMIO_STATUS STATUS_FIELD_ACKNOWLEDGE,
          MMIOEvent.writeReg MMIO_STATUS
            (STATUS_FIELD_ACKNOWLEDGE ||| STATUS_FIELD_DRIVER_OK),
          MMIOEvent.readReg MMIO_HOST_FEATURES,
          MMIOEvent.writeReg MMIO_GUEST_FEATURES (host &&& 4294967263),
          MMIOEvent.writeReg MMIO_STATUS
            (STATUS_FIELD_ACKNOWLEDGE ||| STATUS_FIELD_DRIVER_OK |||
              STATUS_FIELD_FEATURES_OK),
          MMIOEvent.readReg MMIO_STATUS,
          MMIOEvent.readReg MMIO_QUEUE_NUMBER_MAX,
          MMIOEvent.writeReg MMIO_QUEUE_NUMBER VIRTIO_RING_SIZE,
          MMIOEvent.writeReg MMIO_QUEUE_SELECT 0,
          MMIOEvent.writeReg MMIO_GUEST_PAGE_SIZE 4096,
          MMIOEvent.writeReg MMIO_QUEUE_PFN (queueAddr / 4096),
          MMIOEvent.writeReg MMIO_STATUS
            (STATUS_FIELD_ACKNOWLEDGE ||| STATUS_FIELD_DRIVER_OK |||
              STATUS_FIELD_FEATURES_OK ||| STATUS_FIELD_DRIVER_OK)]) := by
  by_cases h1 : echo &&& STATUS_FIELD_FEATURES_OK = 0
  · simp [blockInit, initStatus, initGuestFeatures, initStatusCheck, initQueueCheck,
      initPfn, initNotify, h1]
  · by_cases h2 : qnmax < VIRTIO_RING_SIZE
    all_goals simp only [VIRTIO_RING_SIZE] at h2
    all_goals simp [blockInit, initStatus, initGuestFeatures, initStatusCheck,
      initQueueCheck, initPfn, initNotify, h1, h2, VIRTIO_RING_SIZE]

end Corrosion

namespace Corrosion

/-- The spin loop runs to its budget when the watched ready flag is never
observed true within it. -/
theorem spinGo_exhaust (f : Nat → Bool) :
    ∀ fuel c, (∀ k, c ≤ k → k < c + fuel → f k = false) → spinGo f fuel c = c + fuel := by
  intro fuel
  induction fuel with
  | zero => intro c _; simp [spinGo]
  | succ n ih =>
    intro c h
    have hc : f c = false := h c (Nat.le_refl c) (by omega)
    have := ih (c + 1) (fun k hk1 hk2 => h k (by omega) (by omega))
    simp [spinGo, hc, this]
    omega

/-- C9: when the completion interrupt never marks the watched slot ready
within the spin budget (`f k = false` for every iteration `k`), a block
read or write still returns normally: the result is the post-submit
driver state (or the unchanged state for a write to a read-only device),
the caller buffer exactly as it was, and the unit value — the return
type of `block_operation` carries no error indication — while the spin
loop provably consumed its whole budget without seeing completion. -/
theorem c9_spin_timeout_no_error (dev : BlockDev) (reqAddr : Nat) (buffer : List Nat)
    (bufAddr size offset : Nat) (write : Bool) (budget : Nat) (f : Nat → Bool)
    (h : ∀ k, k < budget → f k = false) :
    blockOperation dev reqAddr buffer bufAddr size offset write budget f =
      ((if dev.readOnly ∧ write then dev
        else (submitRequest dev reqAddr bufAddr size offset write).1), buffer, ()) ∧
    spinIters budget f = budget := by
  constructor
  · by_cases hro : dev.readOnly ∧ write
    · simp [blockOperation, hro]
    · simp [blockOperation, hro]
  · have := spinGo_exhaust f budget 0 (fun k _ hk => h k (by omega))
    simpa [spinIters] using this

theorem c9_spin_timeout_no_error_witness :
    blockOperation devW 4096 [7, 7] 8192 512 1024 false 5 (fun _ => false) =
      ((submitRequest devW 4096 8192 512 1024 false).1, [7, 7], ()) ∧
    spinIters 5 (fun _ => false) = 5 := by
  have h := c9_spin_timeout_no_error devW 4096 [7, 7] 8192 512 1024 false 5
    (fun _ => false) (fun k _ => rfl)
  simpa [devW] using h

end Corrosion

namespace Corrosion

/-- The scan returns null exactly when every chunk is taken or too small. -/
theorem kmallocGo_none_iff (size : Nat) :
    ∀ (cs : List Chunk) (addr : Nat),
      (kmallocGo size addr cs).1 = none ↔ ∀ c ∈ cs, c.taken = true ∨ c.size < size := by
  intro cs
  induction cs with
  | nil => intro addr; simp [kmallocGo]
  | cons c rest ih =>
    intro addr
    by_cases hc : c.taken = false ∧ size ≤ c.size
    · constructor
      · intro h
        exfalso
        by_cases hrem : c.size - size > headerSize
        · simp [kmallocGo, hc, hrem] at h
        · simp [kmallocGo, hc, hrem] at h
      · intro h
        exfalso
        rcases h c (by simp) with h1 | h2
        · rw [hc.1] at h1; exact Bool.false_ne_true h1
        · omega
    · have : (kmallocGo size addr (c :: rest)).1 = (kmallocGo size (addr + c.size) rest).1 := by
        simp [kmallocGo, hc]
      rw [this, ih (addr + c.size)]
      constructor
      · intro h x hx
        rcases List.mem_cons.mp hx with rfl | hx2
        · rcases Decidable.not_and_iff_or_not.mp hc with h1 | h2
          · left; exact Bool.eq_true_of_not_eq_false h1
          · right; omega
        · exact h x hx2
      · intro h x hx; exact h x (List.mem_cons_of_mem c hx)

/-- The scan takes the first fitting free chunk, splitting it exactly when
the leftover exceeds the header size. -/
theorem kmallocGo_found (size : Nat) :
    ∀ (pre : List Chunk) (addr : Nat) (c : Chunk) (post : List Chunk),
      (∀ x ∈ pre, x.taken = true ∨ x.size < size) →
      c.taken = false → size ≤ c.size →
      kmallocGo size addr (pre ++ c :: post) =
        (some (addr + sumSizes pre + headerSize),
         pre ++ (if c.size - size > headerSize then
             ⟨size, true⟩ :: ⟨c.size - size, false⟩ :: post
           else ⟨c.size, true⟩ :: post)) := by
  intro pre
  induction pre with
  | nil =>
    intro addr c post _ hfree hfit
    by_cases hrem : c.size - size > headerSize
    · simp [kmallocGo, hfree, hfit, hrem, sumSizes]
    · simp [kmallocGo, hfree, hfit, hrem, sumSizes]
  | cons x pre ih =>
    intro addr c post hpre hfree hfit
    have hx : ¬(x.taken = false ∧ size ≤ x.size) := by
      rcases hpre x (by simp) with h1 | h2
      · simp [h1]
      · intro h; omega
    have hrest := ih (addr + x.size) c post (fun y hy => hpre y (List.mem_cons_of_mem x hy))
      hfree hfit
    have hgo : kmallocGo size addr ((x :: pre) ++ c :: post) =
        ((kmallocGo size (addr + x.size) (pre ++ c :: post)).1,
         x :: (kmallocGo size (addr + x.size) (pre ++ c :: post)).2) := by
      simp [kmallocGo, hx]
    rw [hgo, hrest]
    have h1 : addr + x.size + sumSizes pre = addr + sumSizes (x :: pre) := by
      simp [sumSizes]
      omega
    rw [h1]
    rfl

/-- C6 (amended): `alloc_bytes(sz)` rounds `sz` up to an 8-byte boundary
and adds the header size, then first-fit scans the chunk list from pool
start to pool end.  The first free chunk at least as large as
request-plus-header is taken; it is split — the remainder becoming a new
free chunk — exactly when the leftover is larger than the header size
(not, as claimed, whenever the chunk is strictly larger); otherwise the
whole chunk is taken as-is.  Null is returned exactly when no free chunk
fits. -/
theorem c6_kmalloc_first_fit (cs : List Chunk) (sz : Nat) :
    ((kmalloc cs sz).1 = none ↔
      ∀ c ∈ cs, c.taken = true ∨ c.size < align_val sz 3 + headerSize) ∧
    (∀ (pre : List Chunk) (c : Chunk) (post : List Chunk),
      cs = pre ++ c :: post →
      (∀ x ∈ pre, x.taken = true ∨ x.size < align_val sz 3 + headerSize) →
      c.taken = false → align_val sz 3 + headerSize ≤ c.size →
      kmalloc cs sz =
        (some (sumSizes pre + headerSize),
         pre ++ (if c.size - (align_val sz 3 + headerSize) > headerSize then
             ⟨align_val sz 3 + headerSize, true⟩ ::
               ⟨c.size - (align_val sz 3 + headerSize), false⟩ :: post
           else ⟨c.size, true⟩ :: post))) := by
  constructor
  · exact kmallocGo_none_iff (align_val sz 3 + headerSize) cs 0
  · intro pre c post hcs hpre hfree hfit
    rw [kmalloc, hcs, kmallocGo_found (align_val sz 3 + headerSize) pre 0 c post hpre hfree hfit]
    simp

theorem c6_kmalloc_first_fit_witness :
    kmalloc [⟨24, true⟩, ⟨48, false⟩] 8 =
      (some 32, [⟨24, true⟩, ⟨16, true⟩, ⟨32, false⟩]) ∧
    (kmalloc [⟨24, true⟩, ⟨8, false⟩] 8).1 = none := by
  constructor
  · have h := (c6_kmalloc_first_fit [⟨24, true⟩, ⟨48, false⟩] 8).2
      [⟨24, true⟩] ⟨48, false⟩ [] rfl (by decide) rfl (by decide)
    simpa [sumSizes, align_val, headerSize] using h
  · exact ((c6_kmalloc_first_fit [⟨24, true⟩, ⟨8, false⟩] 8).1).mpr (by decide)

/-- C6 counterexample to the claim as stated: on the freshly initialised
pool (one free chunk of `poolSize` bytes), a request of
`poolSize - 2 * headerSize` bytes has request-plus-header
`poolSize - headerSize`, strictly smaller than the chunk, yet the chunk is
not split: the remainder (exactly `headerSize` bytes) is folded into the
taken chunk, so no new free chunk of the leftover size appears. -/
theorem c6_split_claim_counterexample :
    align_val 2097136 3 + headerSize < poolSize ∧
    kmalloc [⟨poolSize, false⟩] 2097136 = (some 8, [⟨poolSize, true⟩]) ∧
    kmalloc [⟨poolSize, false⟩] 2097136 ≠
      (some 8, [⟨align_val 2097136 3 + headerSize, true⟩, ⟨headerSize, false⟩]) := by
  refine ⟨by decide, by decide, ?_⟩
  decide

end Corrosion

namespace Corrosion

theorem markRun_length : ∀ (st : List PageRec) (i n : Nat),
    (markRun st i n).length = st.length := by
  intro st
  induction st with
  | nil => intro i n; cases i <;> cases n <;> simp [markRun]
  | cons p rest ih =>
    intro i n
    match i, n with
    | 0, 0 => simp [markRun]
    | 0, m + 1 => simp [markRun, ih]
    | l + 1, n => simp [markRun, ih]

/-- Pointwise effect of the marking loop inside the table. -/
theorem markRun_getD : ∀ (st : List PageRec) (i n k : Nat), k < st.length →
    (markRun st i n).getD k ⟨false, false⟩ =
      (if i ≤ k ∧ k < i + n then
        ⟨true, if k = i + n - 1 then true else (st.getD k ⟨false, false⟩).last⟩
      else st.getD k ⟨false, false⟩) := by
  intro st
  induction st with
  | nil => intro i n k hk; simp at hk
  | cons p rest ih =>
    intro i n k hk
    match i, n with
    | 0, 0 =>
      simp [markRun]
    | 0, m + 1 =>
      match k with
      | 0 =>
        have h1 : (0 : Nat) ≤ 0 ∧ (0 : Nat) < 0 + (m + 1) := by omega
        have h2 : ((0 : Nat) = 0 + (m + 1) - 1) = (m = 0) := propext (by omega)
        simp only [markRun, List.getD_cons_zero, if_pos h1, h2]
      | j + 1 =>
        have hj : j < rest.length := by simpa using hk
        have hih := ih 0 m j hj
        simp only [markRun, List.getD_cons_succ, hih]
        by_cases hw : j < m
        · have h1 : 0 ≤ j + 1 ∧ j + 1 < 0 + (m + 1) := by omega
          have h2 : (j = 0 + m - 1) = (j + 1 = 0 + (m + 1) - 1) := propext (by omega)
          simp only [if_pos (show (0 : Nat) ≤ j ∧ j < 0 + m by omega), if_pos h1, h2]
        · have h1 : ¬(0 ≤ j + 1 ∧ j + 1 < 0 + (m + 1)) := by omega
          simp only [if_neg (show ¬((0 : Nat) ≤ j ∧ j < 0 + m) by omega), if_neg h1]
    | l + 1, n =>
      match k with
      | 0 =>
        have h1 : ¬(l + 1 ≤ 0 ∧ (0 : Nat) < l + 1 + n) := by omega
        simp [markRun, h1]
      | j + 1 =>
        have hj : j < rest.length := by simpa using hk
        have hih := ih l n j hj
        simp only [markRun, List.getD_cons_succ, hih]
        by_cases hw : l ≤ j ∧ j < l + n
        · have h1 : l + 1 ≤ j + 1 ∧ j + 1 < l + 1 + n := by omega
          have h2 : (j = l + n - 1) = (j + 1 = l + 1 + n - 1) := propext (by omega)
          simp only [if_pos hw, if_pos h1, h2]
        · have h1 : ¬(l + 1 ≤ j + 1 ∧ j + 1 < l + 1 + n) := by omega
          simp only [if_neg hw, if_neg h1]

end Corrosion

namespace Corrosion

/-- C7: whenever `allocate_pages(n)` succeeds with run base `i`, it marks
exactly the `n` page records `[i, i+n)` taken, the last-of-run flag is set
on the final record of the run and on no other record of the run, every
record outside the run is unchanged, and `allocate_pages(0)` fails (the
`assert!(pages > 0)` precondition is violated).  The hypothesis is the
allocator invariant that free records carry no stale last flag, which
`init` establishes and every allocation preserves. -/
theorem c7_page_alloc_marks (st : List PageRec) (pages i : Nat) (st2 : List PageRec)
    (hinv : ∀ p ∈ st, p.taken = false → p.last = false)
    (h : pageAlloc st pages = some (i, st2)) :
    st2.length = st.length ∧
    (∀ k, i ≤ k → k < i + pages →
      st2.getD k ⟨false, false⟩ = ⟨true, decide (k = i + pages - 1)⟩) ∧
    (∀ k, k < i ∨ i + pages ≤ k →
      st2.getD k ⟨false, false⟩ = st.getD k ⟨false, false⟩) ∧
    pageAlloc st 0 = none := by
  rw [pageAlloc] at h
  by_cases hp : pages = 0
  · simp [hp] at h
  by_cases hl : st.length < pages
  · simp [hp, hl] at h
  simp only [hp, hl, if_false] at h
  cases hfind : findRun st pages with
  | none => rw [hfind] at h; simp at h
  | some i0 =>
    rw [hfind] at h
    simp only [Option.some.injEq, Prod.mk.injEq] at h
    obtain ⟨rfl, rfl⟩ := h
    rw [findRun] at hfind
    have hmem := List.mem_of_find?_eq_some hfind
    have hiLe : i0 + pages ≤ st.length := by
      have := List.mem_range.mp hmem
      omega
    have hfr : freeRun st i0 pages = true := by
      have := List.find?_some hfind
      simpa using this
    simp only [freeRun, List.all_eq_true] at hfr
    refine ⟨markRun_length st i0 pages, ?_, ?_, by simp [pageAlloc]⟩
    · intro k hk1 hk2
      have hkl : k < st.length := by omega
      rw [markRun_getD st i0 pages k hkl, if_pos ⟨hk1, hk2⟩]
      by_cases hlast : k = i0 + pages - 1
      · simp [hlast]
      · have hfree := hfr (k - i0) (List.mem_range.mpr (by omega))
        rw [show i0 + (k - i0) = k by omega] at hfree
        rw [List.getD_eq_getElem st ⟨true, false⟩ hkl] at hfree
        have htaken : st[k].taken = false := by
          simpa using hfree
        have hlastf : st[k].last = false :=
          hinv st[k] (List.getElem_mem hkl) htaken
        rw [List.getD_eq_getElem st ⟨false, false⟩ hkl]
        simp [hlast, hlastf]
    · intro k hk
      by_cases hkl : k < st.length
      · rw [markRun_getD st i0 pages k hkl, if_neg (by omega)]
      · rw [List.getD_eq_default _ _ (by rw [markRun_length]; omega),
          List.getD_eq_default _ _ (by omega)]

theorem c7_page_alloc_marks_witness :
    pageAlloc [⟨false, false⟩, ⟨false, false⟩, ⟨true, true⟩] 2 =
      some (0, [⟨true, false⟩, ⟨true, true⟩, ⟨true, true⟩]) ∧
    ([⟨true, false⟩, ⟨true, true⟩, ⟨true, true⟩] : List PageRec).getD 0 ⟨false, false⟩ =
      ⟨true, decide (0 = 0 + 2 - 1)⟩ ∧
    ([⟨true, false⟩, ⟨true, true⟩, ⟨true, true⟩] : List PageRec).getD 2 ⟨false, false⟩ =
      ([⟨false, false⟩, ⟨false, false⟩, ⟨true, true⟩] : List PageRec).getD 2 ⟨false, false⟩ ∧
    pageAlloc [⟨false, false⟩, ⟨false, false⟩, ⟨true, true⟩] 0 = none :=
  have h := c7_page_alloc_marks [⟨false, false⟩, ⟨false, false⟩, ⟨true, true⟩] 2 0
    [⟨true, false⟩, ⟨true, true⟩, ⟨true, true⟩] (by decide) (by decide)
  ⟨by decide, h.2.1 0 (by omega) (by omega), h.2.2.1 2 (Or.inr (by omega)), h.2.2.2⟩

end Corrosion

namespace Corrosion

/-- The coalesce pass preserves the total pool coverage. -/
theorem coalesce_sumSizes : ∀ cs : List Chunk, sumSizes (coalesce cs) = sumSizes cs := by
  intro cs
  induction cs using coalesce.induct with
  | case1 => rfl
  | case2 c => rfl
  | case3 c d rest hz =>
    simp [coalesce, hz]
  | case4 c d rest hz hfree ih =>
    simp only [coalesce, if_neg hz, if_pos hfree, sumSizes, List.map_cons, List.sum_cons] at *
    omega
  | case5 c d rest hz hfree ih =>
    simp only [coalesce, if_neg hz, if_neg hfree, sumSizes, List.map_cons, List.sum_cons] at *
    omega

/-- The coalesce pass only merges free chunks: the sequence of taken
chunks, sizes included, is untouched. -/
theorem coalesce_taken : ∀ cs : List Chunk,
    (coalesce cs).filter (fun x => x.taken) = cs.filter (fun x => x.taken) := by
  intro cs
  induction cs using coalesce.induct with
  | case1 => rfl
  | case2 c => rfl
  | case3 c d rest hz => simp [coalesce, hz]
  | case4 c d rest hz hfree ih =>
    have hc : c.taken = false := hfree.1
    have hd : d.taken = false := hfree.2
    simp [coalesce, hz, hfree, List.filter, hc, hd, ih]
  | case5 c d rest hz hfree ih =>
    simp only [coalesce, if_neg hz, if_neg hfree]
    cases hct : c.taken <;> simp [List.filter, hct, ih]

/-- Marking an already-free chunk changes nothing. -/
theorem markFreeAt_free : ∀ (cs : List Chunk) (addr target : Nat) (c : Chunk),
    chunkAtAddr cs addr target = some c → c.taken = false →
    markFreeAt cs addr target = cs := by
  intro cs
  induction cs with
  | nil => intro addr target c h; simp [chunkAtAddr] at h
  | cons x rest ih =>
    intro addr target c h hfree
    by_cases ha : addr = target
    · rw [chunkAtAddr, if_pos ha] at h
      obtain rfl : x = c := by simpa using h
      rw [markFreeAt, if_pos ha, hfree]
      simp
    · rw [chunkAtAddr, if_neg ha] at h
      rw [markFreeAt, if_neg ha, ih (addr + x.size) target c h hfree]

/-- C8 (amended): `free_bytes(null)` is a no-op, and `free_bytes(ptr)` on
a chunk already marked free changes no chunk header bit — but it still
runs the coalesce pass: the resulting state is `coalesce` of the old one,
which keeps the pool coverage and every taken chunk intact yet may merge
adjacent free chunks, so the chunk list is not in general identical. -/
theorem c8_free_null_or_free (cs : List Chunk) (p : Nat) (c : Chunk)
    (hc : chunkAtAddr cs 0 (p - headerSize) = some c) (hfree : c.taken = false) :
    kfree cs none = cs ∧
    kfree cs (some p) = coalesce cs ∧
    sumSizes (coalesce cs) = sumSizes cs ∧
    (coalesce cs).filter (fun x => x.taken) = cs.filter (fun x => x.taken) := by
  refine ⟨rfl, ?_, coalesce_sumSizes cs, coalesce_taken cs⟩
  rw [kfree, markFreeAt_free cs 0 (p - headerSize) c hc hfree]

theorem c8_free_null_or_free_witness :
    kfree [⟨16, false⟩, ⟨16, false⟩] none = [⟨16, false⟩, ⟨16, false⟩] ∧
    kfree [⟨16, false⟩, ⟨16, false⟩] (some 8) = coalesce [⟨16, false⟩, ⟨16, false⟩] ∧
    sumSizes (coalesce [⟨16, false⟩, ⟨16, false⟩]) = sumSizes [⟨16, false⟩, ⟨16, false⟩] ∧
    (coalesce [⟨16, false⟩, ⟨16, false⟩]).filter (fun x => x.taken) =
      ([⟨16, false⟩, ⟨16, false⟩] : List Chunk).filter (fun x => x.taken) :=
  c8_free_null_or_free [⟨16, false⟩, ⟨16, false⟩] 8 ⟨16, false⟩ (by decide) rfl

/-- C8 counterexample to the claim as stated: in the pool state reached
by the C1 sequence (three allocations, all three freed), the pointer 8
refers to a chunk that is already free, yet `free_bytes(8)` is not a
no-op — its coalesce pass merges the two adjacent free chunks, changing
the chunk headers. -/
theorem c8_already_free_not_noop :
    kfree (kfree (kfree
        (kmalloc (kmalloc (kmalloc [⟨poolSize, false⟩] 8).2 8).2 8).2
        (some 8)) (some 40)) (some 24) = [⟨32, false⟩, ⟨2097120, false⟩] ∧
    chunkAtAddr [⟨32, false⟩, ⟨2097120, false⟩] 0 (8 - headerSize) = some ⟨32, false⟩ ∧
    kfree [⟨32, false⟩, ⟨2097120, false⟩] (some 8) ≠ [⟨32, false⟩, ⟨2097120, false⟩] := by
  refine ⟨by decide, by decide, ?_⟩
  decide

end Corrosion

namespace Corrosion

/-- C4: the path cache misses reachable files in large directories.  On a
disk whose root directory holds 17 entries (1088 bytes), the regular file
named by byte 111 — entry 16 of the root, reachable from the root inode —
is absent from the cache `filesystem_init` builds, because `get_dirents`
reads only `BLOCK_SIZE` bytes of directory data and so sees only the
first 16 entries. -/
theorem c4_large_directory_file_missed :
    [47, 111] ∈ reachableFilePaths c4FS 4 [47] 1 ∧
    (c4FS.node 1).isDir = true ∧
    (c4FS.node 24).isDir = false ∧
    lookupCache (cacheTree c4FS 4 [47] 1 []) [47, 111] = none := by
  refine ⟨by decide, rfl, rfl, ?_⟩
  decide

end Corrosion

namespace Corrosion

/-- The per-block count never exceeds the remaining byte budget, so the
`bytes_left - bytes_to_read` subtraction cannot underflow. -/
theorem bytesToRead_le (rs : RS) : bytesToRead rs ≤ rs.bytesLeft := by
  rw [bytesToRead]
  split
  · exact Nat.le_refl _
  · omega

/-- `read_data` moves bytes from the budget to the count: their sum is
invariant. -/
theorem readData_conserve (blk : List Nat) (rs : RS) :
    (readData blk rs).bytesRead + (readData blk rs).bytesLeft = rs.bytesRead + rs.bytesLeft := by
  have h := bytesToRead_le rs
  simp only [readData]
  omega

theorem processZone_conserve (d : Disk) (z : Nat) (rs : RS) :
    (processZone d z rs).1.bytesRead + (processZone d z rs).1.bytesLeft =
      rs.bytesRead + rs.bytesLeft := by
  rw [processZone]
  split
  · have h := readData_conserve (d.data z) rs
    split
    · exact h
    · simpa [seenBlock] using h
  · rfl

theorem processZones_conserve (d : Disk) : ∀ (zs : List Nat) (rs : RS),
    (processZones d zs rs).1.bytesRead + (processZones d zs rs).1.bytesLeft =
      rs.bytesRead + rs.bytesLeft := by
  intro zs
  induction zs with
  | nil => intro rs; rfl
  | cons z rest ih =>
    intro rs
    rw [processZones]
    split
    · exact processZone_conserve d z rs
    · rw [ih (processZone d z rs).1]
      exact processZone_conserve d z rs

/-- A level returns early only with its budget exhausted. -/
theorem processZones_done (d : Disk) : ∀ (zs : List Nat) (rs : RS),
    (processZones d zs rs).2 = true → (processZones d zs rs).1.bytesLeft = 0 := by
  intro zs
  induction zs with
  | nil => intro rs h; simp [processZones] at h
  | cons z rest ih =>
    intro rs
    rw [processZones]
    split
    · intro _
      rename_i hdone
      rw [processZone] at hdone ⊢
      split at hdone
      · split at hdone
        · rename_i hbl
          simp [*]
        · simp at hdone
      · simp at hdone
    · intro h
      exact ih (processZone d z rs).1 h

theorem processZoneLists_conserve (d : Disk) : ∀ (gs : List (List Nat)) (rs : RS),
    (processZoneLists d gs rs).1.bytesRead + (processZoneLists d gs rs).1.bytesLeft =
      rs.bytesRead + rs.bytesLeft := by
  intro gs
  induction gs with
  | nil => intro rs; rfl
  | cons g rest ih =>
    intro rs
    rw [processZoneLists]
    split
    · exact processZones_conserve d g rs
    · rw [ih]; exact processZones_conserve d g rs

theorem processZoneGrids_conserve (d : Disk) : ∀ (gs : List (List (List Nat))) (rs : RS),
    (processZoneGrids d gs rs).1.bytesRead + (processZoneGrids d gs rs).1.bytesLeft =
      rs.bytesRead + rs.bytesLeft := by
  intro gs
  induction gs with
  | nil => intro rs; rfl
  | cons g rest ih =>
    intro rs
    rw [processZoneGrids]
    split
    · exact processZoneLists_conserve d g rs
    · rw [ih]; exact processZoneLists_conserve d g rs

end Corrosion

namespace Corrosion

/-- Sequencing: a traversal over a concatenated zone list is the first
traversal followed, unless it returned early, by the second. -/
theorem processZones_append (d : Disk) : ∀ (a b : List Nat) (rs : RS),
    processZones d (a ++ b) rs =
      if (processZones d a rs).2 then processZones d a rs
      else processZones d b (processZones d a rs).1 := by
  intro a
  induction a with
  | nil => intro b rs; simp [processZones]
  | cons z rest ih =>
    intro b rs
    rw [List.cons_append, processZones, processZones]
    by_cases h : (processZone d z rs).2
    · simp [h]
    · simp only [h, if_false]
      exact ih b (processZone d z rs).1

/-- The nested double-indirect loops traverse the flattened zone list. -/
theorem processZoneLists_eq (d : Disk) : ∀ (gs : List (List Nat)) (rs : RS),
    processZoneLists d gs rs = processZones d gs.flatten rs := by
  intro gs
  induction gs with
  | nil => intro rs; rfl
  | cons g rest ih =>
    intro rs
    rw [List.flatten_cons, processZones_append, processZoneLists, ih]

/-- The nested triple-indirect loops traverse the doubly flattened zone
list. -/
theorem processZoneGrids_eq (d : Disk) : ∀ (gs : List (List (List Nat))) (rs : RS),
    processZoneGrids d gs rs = processZones d (gs.map List.flatten).flatten rs := by
  intro gs
  induction gs with
  | nil => intro rs; rfl
  | cons g rest ih =>
    intro rs
    rw [List.map_cons, List.flatten_cons, processZones_append, processZoneGrids,
      processZoneLists_eq, ih]

/-- The single-indirect level as a plain traversal. -/
theorem indirectZonesF_eq (d : Disk) (inode : Ino) (rs : RS) :
    indirectZonesF d inode rs =
      processZones d
        (if zoneAt inode 7 = 0 then [] else nz (zoneEntries d (zoneAt inode 7))) rs := by
  rw [indirectZonesF]
  split <;> simp_all [processZones]

/-- The double-indirect level as a plain traversal. -/
theorem doubleIndirectF_eq (d : Disk) (inode : Ino) (rs : RS) :
    doubleIndirectF d inode rs =
      processZones d
        (if zoneAt inode 8 = 0 then [] else (doubleGroups d (zoneAt inode 8)).flatten) rs := by
  rw [doubleIndirectF]
  split
  · simp_all [processZones]
  · rw [processZoneLists_eq]

/-- The triple-indirect level as a plain traversal. -/
theorem tripleIndirectF_eq (d : Disk) (inode : Ino) (rs : RS) :
    tripleIndirectF d inode rs =
      processZones d
        (if zoneAt inode 9 = 0 then []
         else ((tripleGroups d (zoneAt inode 9)).map List.flatten).flatten) rs := by
  rw [tripleIndirectF]
  split
  · simp_all [processZones]
  · rw [processZoneGrids_eq]

end Corrosion

namespace Corrosion

/-- The starting byte budget of a read is `min size inode.size`. -/
theorem initRS_bytesLeft (buf0 : Nat → Nat) (inodeSize size offset : Nat) :
    (initRS buf0 inodeSize size offset).bytesLeft = min size inodeSize := by
  simp only [initRS]
  split <;> omega

/-- Whatever level the read stops at, the returned count never exceeds
the starting budget `min size inode.size`. -/
theorem mfsRead_le_min (d : Disk) (inode : Ino) (buf0 : Nat → Nat) (size offset : Nat) :
    (mfsRead d inode buf0 size offset).1 ≤ min size inode.size := by
  simp only [mfsRead]
  set rs0 := initRS buf0 inode.size size offset with hrs0
  set p1 := directZonesF d inode rs0 with hp1
  set p2 := indirectZonesF d inode p1.1 with hp2
  set p3 := doubleIndirectF d inode p2.1 with hp3
  set p4 := tripleIndirectF d inode p3.1 with hp4
  have h0 : rs0.bytesRead = 0 := rfl
  have hbl : rs0.bytesLeft = min size inode.size :=
    initRS_bytesLeft buf0 inode.size size offset
  have c1 : p1.1.bytesRead + p1.1.bytesLeft = rs0.bytesRead + rs0.bytesLeft := by
    rw [hp1, directZonesF]; exact processZones_conserve d _ rs0
  have c2 : p2.1.bytesRead + p2.1.bytesLeft = p1.1.bytesRead + p1.1.bytesLeft := by
    rw [hp2, indirectZonesF_eq]; exact processZones_conserve d _ p1.1
  have c3 : p3.1.bytesRead + p3.1.bytesLeft = p2.1.bytesRead + p2.1.bytesLeft := by
    rw [hp3, doubleIndirectF_eq]; exact processZones_conserve d _ p2.1
  have c4 : p4.1.bytesRead + p4.1.bytesLeft = p3.1.bytesRead + p3.1.bytesLeft := by
    rw [hp4, tripleIndirectF_eq]; exact processZones_conserve d _ p3.1
  split
  · omega
  · split
    · omega
    · split
      · omega
      · split
        · omega
        · omega

/-- C3 (amended): the cursor built by `ReadState::new` clamps the total
bytes delivered by `read(inode, buffer, size, offset)` to at most
`min(size, inode.size)` — not to `inode.size - offset` as claimed. -/
theorem c3_read_clamps_to_min (d : Disk) (inode : Ino) (buf0 : Nat → Nat)
    (size offset : Nat) :
    (mfsRead d inode buf0 size offset).1 ≤ min size inode.size :=
  mfsRead_le_min d inode buf0 size offset

/-- C3 counterexample to the claim as stated: a 1025-byte file stored in
two direct zones, read with `offset = 1024` and `size = 1024`, returns
1024 bytes even though `inode.size - offset = 1`: the budget is clamped
to `min(size, inode.size)` with no reference to `offset`, so the read
runs past the end-of-file position inside the last block. -/
theorem c3_clamp_counterexample :
    (mfsRead exDisk ⟨1025, [1, 2, 0, 0, 0, 0, 0, 0, 0, 0]⟩ (fun _ => 0) 1024 1024).1 = 1024 ∧
    (1025 : Nat) - 1024 = 1 ∧
    ¬(mfsRead exDisk ⟨1025, [1, 2, 0, 0, 0, 0, 0, 0, 0, 0]⟩ (fun _ => 0) 1024 1024).1 ≤
      1025 - 1024 := by
  refine ⟨by decide, rfl, ?_⟩
  decide

/-- C10: the per-block byte count of `read_data` is exactly
`min(bytes_left, BLOCK_SIZE - offset_byte)` and never exceeds the
remaining budget, so the `bytes_left -= bytes_to_read` subtraction in
`ReadState::next` never underflows (the sum of count and budget is
invariant), and the total `read` returns is at most `min(size,
inode.size)`. -/
theorem c10_read_counts_safe (d : Disk) (inode : Ino) (buf0 : Nat → Nat)
    (size offset : Nat) :
    (∀ rs : RS, bytesToRead rs = min rs.bytesLeft (1024 - rs.offsetByte)) ∧
    (∀ rs : RS, bytesToRead rs ≤ rs.bytesLeft) ∧
    (∀ (blk : List Nat) (rs : RS),
      (readData blk rs).bytesRead + (readData blk rs).bytesLeft =
        rs.bytesRead + rs.bytesLeft) ∧
    (mfsRead d inode buf0 size offset).1 ≤ min size inode.size := by
  refine ⟨?_, bytesToRead_le, readData_conserve, mfsRead_le_min d inode buf0 size offset⟩
  intro rs
  rw [bytesToRead]
  split <;> omega

end Corrosion



namespace Corrosion

/-- C2: the claim requires `read(inode, buffer, size, offset)` to leave
the buffer equal to the reference flat-array model of the file at
`[offset, offset + returned)`.  The code violates it: a read of 12 bytes
at offset 0 of a file whose first data zone is present computes
`bytes_to_read = 12` and returns 12, but `memory::memcpy` writes only the
first `memcpyCopied 12 = 8` bytes — its byte tail loop runs over
`bytes_completed..bytes_remaining`, an empty range for every count of at
least 8 — so bytes 8..11 of the buffer keep their prior content (77
here) while the flat model carries the block byte (1 here): the returned
range does not match the model. -/
theorem c2_read_drops_memcpy_tail :
    (mfsRead exDisk ⟨1025, [1, 2, 0, 0, 0, 0, 0, 0, 0, 0]⟩ (fun _ => 77) 12 0).1 = 12 ∧
    (mfsRead exDisk ⟨1025, [1, 2, 0, 0, 0, 0, 0, 0, 0, 0]⟩ (fun _ => 77) 12 0).2 7 = 1 ∧
    (mfsRead exDisk ⟨1025, [1, 2, 0, 0, 0, 0, 0, 0, 0, 0]⟩ (fun _ => 77) 12 0).2 8 = 77 ∧
    (flatFileModel exDisk ⟨1025, [1, 2, 0, 0, 0, 0, 0, 0, 0, 0]⟩).getD 8 0 = 1 ∧
    (mfsRead exDisk ⟨1025, [1, 2, 0, 0, 0, 0, 0, 0, 0, 0]⟩ (fun _ => 77) 12 0).2 8 ≠
      (flatFileModel exDisk ⟨1025, [1, 2, 0, 0, 0, 0, 0, 0, 0, 0]⟩).getD 8 0 ∧
    memcpyCopied 12 = 8 := by
  refine ⟨by decide, by decide, by decide, by decide, ?_, by decide⟩
  decide

end Corrosion
